import Mathlib

/-!
Verification of the gws WebSocket library core against its specification.

Shallow embedding conventions:
* Go byte slices are `List Nat` (each entry a byte value, `< 256` where it matters).
* Go strings are `List Char`.
* Fallible Go functions return `Except GwsError` or pair their result with
  `Option GwsError` (Go's `error` value, `none` = `nil`).
* The third-party flate codec (`github.com/klauspost/compress/flate`) is not part
  of this repository; where a claim depends only on how its output is
  post-processed, the codec is an abstract parameter.
-/

/-- Error values of the library that matter to the claims below.
`closeMessageTooLarge` is `internal.CloseMessageTooLarge` (close code 1009);
`closeNormalClosure` stands in for any other close error value. -/
inductive GwsError
  | closeMessageTooLarge
  | closeNormalClosure
deriving DecidableEq, Repr

/-- Last `n` elements of a list (`l.drop (l.length - n)`), used to express
"the last `C` bytes written". -/
def rtake (n : Nat) (l : List Nat) : List Nat := l.drop (l.length - n)

/-- Concatenation of a sequence of payloads. -/
def concatAll : List (List Nat) → List Nat
  | [] => []
  | p :: ps => p ++ concatAll ps

/-- Total length of a sequence of payloads. -/
def totalLen : List (List Nat) → Nat
  | [] => 0
  | p :: ps => p.length + totalLen ps

/-- Shallow embedding of Go `copy(dst, src)`: overwrites the first
`min dst.length src.length` entries of `dst` with those of `src` and returns the
resulting contents of `dst`.  (Go `copy` has memmove semantics, so the
functional reading is exact even when `src` aliases `dst`.) -/
def goCopy (dst src : List Nat) : List Nat :=
  src.take (min dst.length src.length) ++ dst.drop (min dst.length src.length)

/-- Shallow embedding of Go `copy(dst[i:], src)`. -/
def goCopyAt (dst : List Nat) (i : Nat) (src : List Nat) : List Nat :=
  dst.take i ++ goCopy (dst.drop i) src

/-- Modelled from the spec: `internal.BinaryPow` is absent from `src/`; per the
spec the sliding-window capacity is `2^windowBits`, so `BinaryPow n = 2^n`. -/
def binaryPow (n : Nat) : Nat := 2 ^ n

/-- `slideWindow` (src/compress.go lines 110-114): `enabled` flag, dictionary
bytes, and capacity `size`. -/
structure SlideWindow where
  enabled : Bool
  dict : List Nat
  size : Nat
deriving Repr

/-- `slideWindow.initialize` (src/compress.go lines 116-125): enables the window,
sets `size = BinaryPow windowBits`, and starts from an empty dictionary (the
buffer pool only affects allocation, not contents). -/
def slideWindowInit (windowBits : Nat) : SlideWindow :=
  { enabled := true, dict := [], size := binaryPow windowBits }

/-- `slideWindow.Write` (src/compress.go lines 127-154), translated branch by
branch.  Result is `(new state, n, error)`; the Go code returns a `nil` error on
every path.  The Go locals: `total = len(p)`, `length = len(c.dict)`,
`m = c.size - length` (the guard `m > 0` is `length < size`), and after the
fill step `p` is re-sliced to `p[m:]` with `n = len(p)`. -/
def slideWindowWrite (c : SlideWindow) (p : List Nat) :
    SlideWindow × Nat × Option GwsError :=
  if c.enabled = false then (c, 0, none)
  else
    if p.length + c.dict.length ≤ c.size then
      ({ c with dict := c.dict ++ p }, p.length, none)
    else
      let c1 : SlideWindow :=
        if c.dict.length < c.size then
          { c with dict := c.dict ++ p.take (c.size - c.dict.length) }
        else c
      let p1 : List Nat :=
        if c.dict.length < c.size then p.drop (c.size - c.dict.length) else p
      if c.size ≤ p1.length then
        ({ c1 with dict := goCopy c1.dict (p1.drop (p1.length - c.size)) }, p.length, none)
      else
        let nd := goCopyAt (goCopy c1.dict (c1.dict.drop p1.length)) (c.size - p1.length) p1
        ({ c1 with dict := nd }, p.length, none)

/-- Folding a sequence of `slideWindow.Write` calls (ignoring the returned
`(n, err)` pair, as the library does). -/
def writeAll (c : SlideWindow) (ps : List (List Nat)) : SlideWindow :=
  ps.foldl (fun s p => (slideWindowWrite s p).1) c

theorem totalLen_eq (ps : List (List Nat)) : totalLen ps = (concatAll ps).length := by
  induction ps with
  | nil => rfl
  | cons p ps ih => simp [concatAll, totalLen, ih]

theorem rtake_length (n : Nat) (l : List Nat) : (rtake n l).length = min n l.length := by
  simp [rtake]; omega

theorem rtake_all (n : Nat) (l : List Nat) (h : l.length ≤ n) : rtake n l = l := by
  simp [rtake, Nat.sub_eq_zero_of_le h]

/-- Composing `rtake` with a further append: only the last `n` bytes matter. -/
theorem rtake_rtake_append (n : Nat) (A B : List Nat) :
    rtake n (rtake n A ++ B) = rtake n (A ++ B) := by
  by_cases h : A.length ≤ n
  · rw [rtake_all n A h]
  · push_neg at h
    simp only [rtake, List.length_append, List.length_drop,
      List.drop_append_eq_append_drop, List.drop_drop]
    have h1 : A.length - n + (A.length - (A.length - n) + B.length - n)
        = A.length + B.length - n := by omega
    have h2 : A.length - (A.length - n) + B.length - n - (A.length - (A.length - n))
        = B.length - n := by omega
    have h3 : A.length + B.length - n - A.length = B.length - n := by omega
    rw [h1, h2, h3]

theorem goCopy_of_length_eq (dst src : List Nat) (h : dst.length = src.length) :
    goCopy dst src = src := by
  simp [goCopy, h, List.take_of_length_le, List.drop_of_length_le]

theorem goCopy_of_le (dst src : List Nat) (h : src.length ≤ dst.length) :
    goCopy dst src = src ++ dst.drop src.length := by
  simp [goCopy, min_eq_right h, List.take_of_length_le]

/-- The full-dictionary overwrite branch: `copy(dict, p[n-size:])`. -/
theorem slideCore_ge (d p1 : List Nat) (S : Nat) (hd : d.length = S)
    (h : S ≤ p1.length) :
    goCopy d (p1.drop (p1.length - S)) = rtake S (d ++ p1) := by
  have hs : (p1.drop (p1.length - S)).length = S := by simp; omega
  rw [goCopy_of_length_eq d _ (by rw [hd, hs])]
  simp only [rtake, List.length_append, hd]
  rw [List.drop_append_eq_append_drop]
  rw [List.drop_of_length_le (by omega : d.length ≤ S + p1.length - S)]
  rw [List.nil_append, hd]
  congr 1
  omega

/-- The shift-then-fill branch: `copy(dict, dict[n:]); copy(dict[size-n:], p)`. -/
theorem slideCore_lt (d p1 : List Nat) (S : Nat) (hd : d.length = S)
    (h : p1.length < S) :
    goCopyAt (goCopy d (d.drop p1.length)) (S - p1.length) p1 = rtake S (d ++ p1) := by
  have hdn : (d.drop p1.length).length = S - p1.length := by simp [hd]
  rw [goCopy_of_le d _ (by simp [hd])]
  rw [hdn]
  unfold goCopyAt
  rw [List.take_append_of_le_length (by rw [hdn] : S - p1.length ≤ (d.drop p1.length).length)]
  rw [List.take_of_length_le (le_of_eq hdn)]
  rw [List.drop_append_eq_append_drop]
  rw [List.drop_of_length_le (le_of_eq hdn), hdn, Nat.sub_self, List.drop_zero,
    List.nil_append]
  have hd2 : (d.drop (S - p1.length)).length = p1.length := by simp [hd]; omega
  rw [goCopy_of_length_eq _ _ (by rw [hd2])]
  simp only [rtake, List.length_append, hd]
  have : S + p1.length - S = p1.length := by omega
  rw [this, List.drop_append_eq_append_drop]
  rw [Nat.sub_eq_zero_of_le (by omega : p1.length ≤ d.length), List.drop_zero]

/-- Core step lemma: on an enabled window whose dictionary respects the
capacity, `Write` leaves the dictionary holding exactly the last `size` bytes of
`dict ++ p`, and preserves `size` and `enabled`. -/
theorem slideWindowWrite_dict (c : SlideWindow) (p : List Nat)
    (he : c.enabled = true) (hlen : c.dict.length ≤ c.size) :
    (slideWindowWrite c p).1.dict = rtake c.size (c.dict ++ p) ∧
    (slideWindowWrite c p).1.size = c.size ∧
    (slideWindowWrite c p).1.enabled = true := by
  unfold slideWindowWrite
  rw [if_neg (by simp [he])]
  by_cases h1 : p.length + c.dict.length ≤ c.size
  · rw [if_pos h1]
    refine ⟨?_, rfl, he⟩
    dsimp only
    rw [rtake_all _ _ (by simp; omega)]
  · rw [if_neg h1]
    dsimp only
    by_cases h2 : c.dict.length < c.size
    · rw [if_pos h2, if_pos h2]
      dsimp only
      have hd1len : (c.dict ++ p.take (c.size - c.dict.length)).length = c.size := by
        simp; omega
      have hsplit : c.dict ++ p
          = (c.dict ++ p.take (c.size - c.dict.length)) ++ p.drop (c.size - c.dict.length) := by
        simp
      by_cases h3 : c.size ≤ (p.drop (c.size - c.dict.length)).length
      · rw [if_pos h3]
        refine ⟨?_, rfl, he⟩
        dsimp only
        rw [hsplit]
        exact slideCore_ge _ _ _ hd1len h3
      · rw [if_neg h3]
        refine ⟨?_, rfl, he⟩
        dsimp only
        rw [hsplit]
        exact slideCore_lt (c.dict ++ p.take (c.size - c.dict.length))
          (p.drop (c.size - c.dict.length)) c.size hd1len (by omega)
    · rw [if_neg h2, if_neg h2]
      have hfull : c.dict.length = c.size := by omega
      by_cases h3 : c.size ≤ p.length
      · rw [if_pos h3]
        refine ⟨?_, rfl, he⟩
        dsimp only
        exact slideCore_ge c.dict p c.size hfull h3
      · rw [if_neg h3]
        refine ⟨?_, rfl, he⟩
        dsimp only
        exact slideCore_lt c.dict p c.size hfull (by omega)

/-- Iterating the step lemma over a whole write sequence. -/
theorem writeAll_spec (ps : List (List Nat)) (c : SlideWindow)
    (he : c.enabled = true) (hlen : c.dict.length ≤ c.size) :
    (writeAll c ps).dict = rtake c.size (c.dict ++ concatAll ps) ∧
    (writeAll c ps).size = c.size ∧ (writeAll c ps).enabled = true := by
  induction ps generalizing c with
  | nil =>
    refine ⟨?_, rfl, he⟩
    simp only [writeAll, List.foldl_nil, concatAll, List.append_nil]
    exact (rtake_all _ _ hlen).symm
  | cons p ps ih =>
    obtain ⟨h1, h2, h3⟩ := slideWindowWrite_dict c p he hlen
    have hlen' : (slideWindowWrite c p).1.dict.length ≤ (slideWindowWrite c p).1.size := by
      rw [h1, h2, rtake_length]; omega
    obtain ⟨ha, hb, hc⟩ := ih (slideWindowWrite c p).1 h3 hlen'
    simp only [writeAll, List.foldl_cons] at *
    refine ⟨?_, by rw [hb, h2], hc⟩
    rw [ha, h1, h2, rtake_rtake_append]
    simp [concatAll]

/-- Claim C1: starting from an enabled sliding window of capacity
`C = 2^windowBits`, after writes whose payloads total at least `C` bytes the
dictionary holds exactly the last `C` bytes of the concatenation of all written
payloads, in order. -/
theorem c1_slide_window_last_bytes (windowBits : Nat) (ps : List (List Nat))
    (h : 2 ^ windowBits ≤ totalLen ps) :
    (writeAll (slideWindowInit windowBits) ps).dict
        = rtake (2 ^ windowBits) (concatAll ps) ∧
    (writeAll (slideWindowInit windowBits) ps).dict.length = 2 ^ windowBits := by
  obtain ⟨h1, _h2, _h3⟩ :=
    writeAll_spec ps (slideWindowInit windowBits) rfl (by simp [slideWindowInit])
  rw [show (slideWindowInit windowBits).size = 2 ^ windowBits from rfl,
    show (slideWindowInit windowBits).dict = [] from rfl, List.nil_append] at h1
  refine ⟨h1, ?_⟩
  rw [h1, rtake_length, ← totalLen_eq]
  omega

theorem c1_slide_window_last_bytes_witness :
    2 ^ 1 ≤ totalLen [[1], [2, 3], [4]] ∧
    ((writeAll (slideWindowInit 1) [[1], [2, 3], [4]]).dict
        = rtake (2 ^ 1) (concatAll [[1], [2, 3], [4]]) ∧
     (writeAll (slideWindowInit 1) [[1], [2, 3], [4]]).dict.length = 2 ^ 1) :=
  ⟨by decide, c1_slide_window_last_bytes 1 [[1], [2, 3], [4]] (by decide)⟩

theorem slideWindowWrite_snd (c : SlideWindow) (p : List Nat) :
    (slideWindowWrite c p).2 = ((if c.enabled then p.length else 0), none) := by
  unfold slideWindowWrite
  by_cases he : c.enabled
  · rw [if_neg (by simp [he]), he, if_pos rfl]
    by_cases h1 : p.length + c.dict.length ≤ c.size
    · rw [if_pos h1]
    · rw [if_neg h1]
      dsimp only
      by_cases h3 : c.size ≤ (if c.dict.length < c.size then
          p.drop (c.size - c.dict.length) else p).length
      · rw [if_pos h3]
      · rw [if_neg h3]
  · have he' : c.enabled = false := by revert he; cases c.enabled <;> simp
    rw [if_pos he', he', if_neg (by simp)]

/-- Claim C8: `slideWindow.Write` never returns an error, returns
`(len p, nil)` when the window is enabled and `(0, nil)` when disabled, and on
any window produced by `initialize` the dictionary length never exceeds the
capacity `2^windowBits` however many writes are performed. -/
theorem c8_slide_window_invariants (c : SlideWindow) (p : List Nat)
    (windowBits : Nat) (ps : List (List Nat)) :
    (slideWindowWrite c p).2.2 = none ∧
    (slideWindowWrite c p).2.1 = (if c.enabled then p.length else 0) ∧
    (writeAll (slideWindowInit windowBits) ps).dict.length ≤ 2 ^ windowBits := by
  refine ⟨?_, ?_, ?_⟩
  · rw [slideWindowWrite_snd]
  · rw [slideWindowWrite_snd]
  · obtain ⟨h1, _, _⟩ :=
      writeAll_spec ps (slideWindowInit windowBits) rfl (by simp [slideWindowInit])
    rw [show (slideWindowInit windowBits).size = 2 ^ windowBits from rfl,
      show (slideWindowInit windowBits).dict = [] from rfl, List.nil_append] at h1
    rw [h1, rtake_length]
    omega

/-! ## Deflater: compression tail truncation and decompression (src/compress.go) -/

/-- `flateTail` (src/compress.go line 19): the fixed 9 bytes appended to every
inbound compressed payload before inflating. -/
def flateTail : List Nat := [0x00, 0x00, 0xff, 0xff, 0x01, 0x00, 0x00, 0xff, 0xff]

/-- Big-endian 32-bit read of a 4-byte slice, as `binary.BigEndian.Uint32`
does on a slice of bytes. -/
def beU32 (l : List Nat) : Nat := l.foldl (fun a b => a * 256 + b) 0

/-- `deflater.Compress` (src/compress.go lines 90-108).  The flate writer is
external to this repository, so its compressed-and-flushed output for the given
`src` and `dict` is an abstract parameter `flateOut`; the writer appends it to
`dst`.  The function then truncates the final 4 bytes of the buffer exactly when
`n = dst.Len() >= 4` and `binary.BigEndian.Uint32(dst[n-4:]) == math.MaxUint16`. -/
def deflaterCompress (flateOut dst : List Nat) : List Nat :=
  let dst1 := dst ++ flateOut
  let n := dst1.length
  if 4 ≤ n then
    if beU32 (dst1.drop (n - 4)) = 65535 then dst1.take (n - 4) else dst1
  else dst1

/-- `io.CopyBuffer` draining a `limitedReader` (src/compress.go lines 81 and
240-247): the inflate reader yields `chunks`; each read adds the chunk length to
the running count `acc` and fails with `CloseMessageTooLarge` as soon as the
count exceeds the limit `M`; otherwise the chunk is appended to the output. -/
def copyLimited (limit : Nat) : List (List Nat) → Nat → Except GwsError (List Nat)
  | [], _ => .ok []
  | ch :: rest, acc =>
    if limit < acc + ch.length then .error .closeMessageTooLarge
    else
      match copyLimited limit rest (acc + ch.length) with
      | .ok tail => .ok (ch ++ tail)
      | .error e => .error e

/-- `deflater.Decompress` (src/compress.go lines 74-87).  `flateTail` is
appended to `src`, the inflate reader is reset with `dict`, and the output is
copied through the limited reader into the result buffer.  The third-party
inflate codec is abstracted as `inflate`, mapping the fed bytes and the
dictionary to the chunk sequence its successive `Read` calls yield. -/
def deflaterDecompress (inflate : List Nat → List Nat → List (List Nat))
    (limit : Nat) (src dict : List Nat) : Except GwsError (List Nat) :=
  copyLimited limit (inflate (src ++ flateTail) dict) 0

/-- Total number of bytes the abstract inflate reader yields for an input. -/
def inflatedLen (inflate : List Nat → List Nat → List (List Nat))
    (src dict : List Nat) : Nat :=
  totalLen (inflate (src ++ flateTail) dict)

theorem copyLimited_ok (limit : Nat) (chunks : List (List Nat)) (acc : Nat)
    (h : acc + totalLen chunks ≤ limit) :
    copyLimited limit chunks acc = .ok (concatAll chunks) := by
  induction chunks generalizing acc with
  | nil => rfl
  | cons ch rest ih =>
    simp only [totalLen] at h
    unfold copyLimited
    rw [if_neg (by omega)]
    rw [ih (acc + ch.length) (by omega)]
    rfl

theorem copyLimited_err (limit : Nat) (chunks : List (List Nat)) (acc : Nat)
    (h0 : acc ≤ limit) (h : limit < acc + totalLen chunks) :
    copyLimited limit chunks acc = .error .closeMessageTooLarge := by
  induction chunks generalizing acc with
  | nil => exfalso; simp only [totalLen, Nat.add_zero] at h; omega
  | cons ch rest ih =>
    simp only [totalLen] at h
    unfold copyLimited
    by_cases h1 : limit < acc + ch.length
    · rw [if_pos h1]
    · rw [if_neg h1, ih (acc + ch.length) (by omega) (by omega)]

/-- Claim C2: `deflater.Compress` appends the flate-compressed-and-flushed
bytes to `dst` and truncates the final 4 bytes exactly when the buffer has
length at least 4 and its trailing 4 bytes read as a big-endian u32 equal
`0x0000FFFF`; and (for byte-valued entries) that condition holds exactly when
the buffer literally ends in `00 00 FF FF`. -/
theorem c2_compress_tail_truncation (flateOut dst : List Nat)
    (hb : ∀ b ∈ dst ++ flateOut, b < 256) :
    deflaterCompress flateOut dst
      = (if 4 ≤ (dst ++ flateOut).length ∧
            beU32 ((dst ++ flateOut).drop ((dst ++ flateOut).length - 4)) = 65535
         then (dst ++ flateOut).take ((dst ++ flateOut).length - 4)
         else dst ++ flateOut) ∧
    ((4 ≤ (dst ++ flateOut).length ∧
        beU32 ((dst ++ flateOut).drop ((dst ++ flateOut).length - 4)) = 65535)
      ↔ ∃ pre, dst ++ flateOut = pre ++ [0x00, 0x00, 0xff, 0xff]) := by
  constructor
  · unfold deflaterCompress
    by_cases h4 : 4 ≤ (dst ++ flateOut).length
    · rw [if_pos h4]
      by_cases hv : beU32 ((dst ++ flateOut).drop ((dst ++ flateOut).length - 4)) = 65535
      · rw [if_pos hv, if_pos ⟨h4, hv⟩]
      · rw [if_neg hv, if_neg (by tauto)]
    · rw [if_neg h4, if_neg (by tauto)]
  · constructor
    · rintro ⟨h4, hv⟩
      set L := dst ++ flateOut with hL
      refine ⟨L.take (L.length - 4), ?_⟩
      have htd : L = L.take (L.length - 4) ++ L.drop (L.length - 4) := by
        rw [List.take_append_drop]
      have hlen4 : (L.drop (L.length - 4)).length = 4 := by simp; omega
      have hmem : ∀ b ∈ L.drop (L.length - 4), b < 256 := by
        intro b hbmem
        exact hb b (List.mem_of_mem_drop hbmem)
      obtain ⟨a, b', c', d', htail⟩ :
          ∃ a b' c' d', L.drop (L.length - 4) = [a, b', c', d'] := by
        rcases ht : L.drop (L.length - 4) with _ | ⟨a, _ | ⟨b', _ | ⟨c', _ | ⟨d', rest⟩⟩⟩⟩ <;>
          rw [ht] at hlen4 <;> simp only [List.length_cons, List.length_nil] at hlen4
        · omega
        · omega
        · omega
        · omega
        · have hrest : rest = [] := by
            rw [← List.length_eq_zero]
            omega
          exact ⟨a, b', c', d', by rw [hrest]⟩
      rw [htail] at hv hmem
      have ha : a < 256 := hmem a (by simp)
      have hbb : b' < 256 := hmem b' (by simp)
      have hcc : c' < 256 := hmem c' (by simp)
      have hdd : d' < 256 := hmem d' (by simp)
      unfold beU32 at hv
      rw [List.foldl_cons, List.foldl_cons, List.foldl_cons, List.foldl_cons,
        List.foldl_nil] at hv
      have : a = 0 ∧ b' = 0 ∧ c' = 255 ∧ d' = 255 := by omega
      obtain ⟨rfl, rfl, rfl, rfl⟩ := this
      conv_lhs => rw [htd]
      rw [htail]
    · rintro ⟨pre, hpre⟩
      have h4 : 4 ≤ (dst ++ flateOut).length := by
        rw [hpre]; simp
      refine ⟨h4, ?_⟩
      rw [hpre]
      have : (pre ++ [0x00, 0x00, 0xff, 0xff]).length - 4 = pre.length := by simp
      rw [this, List.drop_append_eq_append_drop,
        List.drop_of_length_le (le_refl pre.length), Nat.sub_self, List.drop_zero,
        List.nil_append]
      rfl

theorem c2_compress_tail_truncation_witness :
    (∀ b ∈ ([5] ++ [9, 0, 0, 0xff, 0xff] : List Nat), b < 256) ∧
    (deflaterCompress [9, 0, 0, 0xff, 0xff] [5]
        = (if 4 ≤ (([5] : List Nat) ++ [9, 0, 0, 0xff, 0xff]).length ∧
              beU32 ((([5] : List Nat) ++ [9, 0, 0, 0xff, 0xff]).drop
                ((([5] : List Nat) ++ [9, 0, 0, 0xff, 0xff]).length - 4)) = 65535
           then (([5] : List Nat) ++ [9, 0, 0, 0xff, 0xff]).take
                ((([5] : List Nat) ++ [9, 0, 0, 0xff, 0xff]).length - 4)
           else ([5] : List Nat) ++ [9, 0, 0, 0xff, 0xff]) ∧
      ((4 ≤ (([5] : List Nat) ++ [9, 0, 0, 0xff, 0xff]).length ∧
          beU32 ((([5] : List Nat) ++ [9, 0, 0, 0xff, 0xff]).drop
            ((([5] : List Nat) ++ [9, 0, 0, 0xff, 0xff]).length - 4)) = 65535)
        ↔ ∃ pre, ([5] : List Nat) ++ [9, 0, 0, 0xff, 0xff]
            = pre ++ [0x00, 0x00, 0xff, 0xff])) :=
  ⟨by decide, c2_compress_tail_truncation [9, 0, 0, 0xff, 0xff] [5] (by decide)⟩

/-- Claim C3: `deflater.Decompress` appends exactly the fixed 9-byte tail
`00 00 FF FF 01 00 00 FF FF` to `src`, hands `src ++ flateTail` together with
`dict` to the (reset) inflate reader, and — whenever the inflated size fits the
limit — returns a buffer holding the full inflated bytes. -/
theorem c3_decompress_appends_tail
    (inflate : List Nat → List Nat → List (List Nat))
    (limit : Nat) (src dict : List Nat)
    (h : inflatedLen inflate src dict ≤ limit) :
    flateTail = [0x00, 0x00, 0xff, 0xff, 0x01, 0x00, 0x00, 0xff, 0xff] ∧
    deflaterDecompress inflate limit src dict
      = .ok (concatAll (inflate (src ++ flateTail) dict)) := by
  refine ⟨rfl, ?_⟩
  unfold deflaterDecompress
  exact copyLimited_ok limit _ 0 (by simpa [inflatedLen] using h)

theorem c3_decompress_appends_tail_witness :
    inflatedLen (fun _ _ => [[1, 2], [3]]) [7] [] ≤ 10 ∧
    (flateTail = [0x00, 0x00, 0xff, 0xff, 0x01, 0x00, 0x00, 0xff, 0xff] ∧
     deflaterDecompress (fun _ _ => [[1, 2], [3]]) 10 [7] []
       = .ok (concatAll ((fun (_ _ : List Nat) => [[1, 2], [3]]) ([7] ++ flateTail) []))) :=
  ⟨by decide, c3_decompress_appends_tail (fun _ _ => [[1, 2], [3]]) 10 [7] [] (by decide)⟩

/-- Claim C4: `deflater.Decompress` fails with `CloseMessageTooLarge` exactly
when the inflated size strictly exceeds the configured limit, and succeeds
(returning a buffer) exactly when it does not. -/
theorem c4_decompress_limit (inflate : List Nat → List Nat → List (List Nat))
    (limit : Nat) (src dict : List Nat) :
    (deflaterDecompress inflate limit src dict = .error .closeMessageTooLarge
        ↔ limit < inflatedLen inflate src dict) ∧
    ((∃ out, deflaterDecompress inflate limit src dict = .ok out)
        ↔ inflatedLen inflate src dict ≤ limit) := by
  by_cases h : limit < inflatedLen inflate src dict
  · have herr : deflaterDecompress inflate limit src dict = .error .closeMessageTooLarge := by
      unfold deflaterDecompress
      exact copyLimited_err limit _ 0 (Nat.zero_le _) (by simpa [inflatedLen] using h)
    refine ⟨⟨fun _ => h, fun _ => herr⟩, ⟨?_, fun hle => absurd hle (by omega)⟩⟩
    rintro ⟨out, hout⟩
    rw [herr] at hout
    exact absurd hout (by simp)
  · have hok : deflaterDecompress inflate limit src dict
        = .ok (concatAll (inflate (src ++ flateTail) dict)) := by
      unfold deflaterDecompress
      exact copyLimited_ok limit _ 0 (by simp only [inflatedLen] at h; omega)
    refine ⟨⟨fun herr => ?_, fun hlt => absurd hlt h⟩,
      ⟨fun _ => by omega, fun _ => ⟨_, hok⟩⟩⟩
    rw [hok] at herr
    exact absurd herr (by simp)

/-! ## Permessage-deflate negotiation (src/compress.go lines 156-230)

Go strings are modelled as `List Char`.  `strings.Split`, `strings.SplitN`,
`strings.TrimSpace`, `strings.Join`, `strconv.Atoi` and `strconv.Itoa` are Go
standard library functions and are embedded below; `internal.Split`,
`internal.WithDefault`, `internal.SelectValue` and `internal.Min` belong to this
repository but are absent from `src/`, so they are modelled from the spec and
their call sites. -/

/-- Go `unicode.IsSpace` restricted to latin-1 (space, `\t`..`\r`, NEL, NBSP);
extension whitespace beyond latin-1 never occurs in the headers at issue. -/
def isGoSpace (c : Char) : Bool :=
  c == ' ' || ('\t' ≤ c && c ≤ '\r') || c == '\u0085' || c == ' '

/-- Go `strings.TrimSpace`. -/
def trimSpace (s : List Char) : List Char :=
  ((s.dropWhile isGoSpace).reverse.dropWhile isGoSpace).reverse

def splitCharAux (sep : Char) : List Char → List Char → List (List Char)
  | [], acc => [acc.reverse]
  | c :: cs, acc =>
    if c = sep then acc.reverse :: splitCharAux sep cs []
    else splitCharAux sep cs (c :: acc)

/-- Go `strings.Split` with a single-character separator (empty pieces kept). -/
def goSplitChar (s : List Char) (sep : Char) : List (List Char) := splitCharAux sep s []

/-- Modelled from the spec: `internal.Split` is absent from `src/`.  The spec
says negotiation "parse[s] tokens separated by `;`"; since the generated
headers join tokens with `"; "`, the tokens are trimmed of whitespace and empty
pieces are dropped. -/
def internalSplit (s : List Char) (sep : Char) : List (List Char) :=
  ((goSplitChar s sep).map trimSpace).filter (fun t => !t.isEmpty)

/-- Go `strings.SplitN(s, "=", 2)`: the part before the first `=`, and the rest
(`none` when no `=` occurs, in which case `len(pair) == 1`). -/
def goSplitN2 : List Char → Char → List Char × Option (List Char)
  | [], _ => ([], none)
  | c :: cs, sep =>
    if c = sep then ([], some cs)
    else
      let r := goSplitN2 cs sep
      (c :: r.1, r.2)

def parseDigitsAux : List Char → Nat → Option Nat
  | [], acc => some acc
  | c :: cs, acc =>
    if '0' ≤ c ∧ c ≤ '9' then parseDigitsAux cs (acc * 10 + (c.toNat - 48))
    else none

/-- Decimal digit run (at least one digit, nothing else). -/
def parseDigits (s : List Char) : Option Nat :=
  if s.isEmpty then none else parseDigitsAux s 0

/-- Go `strconv.Atoi` with the error discarded, as the call sites
`x, _ := strconv.Atoi(pair[1])` do: syntax errors yield 0, out-of-range values
saturate at the int64 bounds. -/
def goAtoi (s : List Char) : Int :=
  let core : List Char → Bool → Int := fun ds neg =>
    match parseDigits ds with
    | none => 0
    | some m =>
      if neg then (if m ≤ 2 ^ 63 then -(m : Int) else -(2 ^ 63 : Int))
      else (if m < 2 ^ 63 then (m : Int) else (2 ^ 63 - 1 : Int))
  match s with
  | [] => 0
  | c :: rest =>
    if c = '+' then core rest false
    else if c = '-' then core rest true
    else core s false

/-- Go `strconv.Itoa`. -/
def goItoa (i : Int) : List Char :=
  if i < 0 then '-' :: Nat.toDigits 10 (-i).toNat else Nat.toDigits 10 i.toNat

/-- Modelled from the spec: `internal.WithDefault` is absent from `src/`; it
returns the default when the value is the zero value, so an unparsed or `0`
window-bits advertisement falls back to 15. -/
def withDefault (x d : Int) : Int := if x = 0 then d else x

/-- Modelled from the spec: `internal.SelectValue(ok, a, b)` is absent from
`src/`; it returns `a` when `ok` and `b` otherwise. -/
def selectValue {α : Type} (ok : Bool) (a b : α) : α := if ok then a else b

/-- Header token constants (`internal.PermessageDeflate` and friends; the first
three are visible verbatim in src/internal/others.go's
`SecWebSocketExtensions` value). -/
def pmdTok : List Char := "permessage-deflate".data

def sncTok : List Char := "server_no_context_takeover".data

def cncTok : List Char := "client_no_context_takeover".data

def smwbTok : List Char := "server_max_window_bits".data

def cmwbTok : List Char := "client_max_window_bits".data

def eqTok : List Char := "=".data

/-- `PermessageDeflate` options (the library's public struct; field order and
meanings as in the Go source). -/
structure PermessageDeflate where
  enabled : Bool := false
  threshold : Int := 0
  level : Int := 0
  poolSize : Int := 0
  serverContextTakeover : Bool := false
  clientContextTakeover : Bool := false
  serverMaxWindowBits : Int := 0
  clientMaxWindowBits : Int := 0
deriving DecidableEq, Repr

/-- One iteration of the `for _, s := range ss` switch in
`permessageNegotiation` (src/compress.go lines 204-225). -/
def negotiateStep (o : PermessageDeflate) (s : List Char) : PermessageDeflate :=
  let pair := goSplitN2 s '='
  if pair.1 = pmdTok then o
  else if pair.1 = sncTok then { o with serverContextTakeover := false }
  else if pair.1 = cncTok then { o with clientContextTakeover := false }
  else if pair.1 = smwbTok then
    match pair.2 with
    | some v =>
      let x := withDefault (goAtoi v) 15
      { o with serverMaxWindowBits := min o.serverMaxWindowBits x }
    | none => o
  else if pair.1 = cmwbTok then
    match pair.2 with
    | some v =>
      let x := withDefault (goAtoi v) 15
      { o with clientMaxWindowBits := min o.clientMaxWindowBits x }
    | none => o
  else o

/-- `permessageNegotiation` (src/compress.go lines 195-230). -/
def permessageNegotiation (str : List Char) : PermessageDeflate :=
  let options : PermessageDeflate :=
    { serverContextTakeover := true
      clientContextTakeover := true
      serverMaxWindowBits := 15
      clientMaxWindowBits := 15 }
  let options := (internalSplit str ';').foldl negotiateStep options
  let cbits := selectValue (decide (options.clientMaxWindowBits < 8)) 8 options.clientMaxWindowBits
  let options := { options with clientMaxWindowBits := cbits }
  let sbits := selectValue (decide (options.serverMaxWindowBits < 8)) 8 options.serverMaxWindowBits
  { options with serverMaxWindowBits := sbits }

/-- The window-bits value a token advertises, after the code's
`Atoi`-then-`WithDefault` treatment (`none` when the token is for a different
key or carries no `=`). -/
def mwbValue (tok : List Char) (s : List Char) : Option Int :=
  let pair := goSplitN2 s '='
  if pair.1 = tok then pair.2.map (fun v => withDefault (goAtoi v) 15) else none

/-- All values advertised for a window-bits key in a header string. -/
def advertisedValues (tok : List Char) (str : List Char) : List Int :=
  (internalSplit str ';').filterMap (mwbValue tok)

/-- The keys (parts before `=`) of all tokens of a header string. -/
def tokenKeys (str : List Char) : List (List Char) :=
  (internalSplit str ';').map (fun s => (goSplitN2 s '=').1)

/-- Spec-side description of a negotiated window-bits field: minimum of the
default 15 and every advertised value, raised to 8 from below. -/
def negotiatedBits (tok : List Char) (str : List Char) : Int :=
  max 8 ((advertisedValues tok str).foldl min 15)

/-- The claim's literal reading, where an advertised value is the raw
`Atoi` result without the zero-value fallback. -/
def negotiatedBitsClaim (tok : List Char) (str : List Char) : Int :=
  max 8 (((internalSplit str ';').filterMap (fun s =>
    let pair := goSplitN2 s '='
    if pair.1 = tok then pair.2.map goAtoi else none)).foldl min 15)

theorem tokNe_pmd_snc : pmdTok ≠ sncTok := by decide
theorem tokNe_pmd_smwb : pmdTok ≠ smwbTok := by decide
theorem tokNe_pmd_cmwb : pmdTok ≠ cmwbTok := by decide
theorem tokNe_snc_smwb : sncTok ≠ smwbTok := by decide
theorem tokNe_snc_cmwb : sncTok ≠ cmwbTok := by decide
theorem tokNe_cnc_smwb : cncTok ≠ smwbTok := by decide
theorem tokNe_cnc_cmwb : cncTok ≠ cmwbTok := by decide
theorem tokNe_smwb_cmwb : smwbTok ≠ cmwbTok := by decide
theorem tokNe_cmwb_smwb : cmwbTok ≠ smwbTok := by decide

theorem negotiateStep_sbits (o : PermessageDeflate) (s : List Char) :
    (negotiateStep o s).serverMaxWindowBits
      = Option.elim (mwbValue smwbTok s) o.serverMaxWindowBits
          (min o.serverMaxWindowBits) := by
  simp only [negotiateStep, mwbValue]
  by_cases h1 : (goSplitN2 s '=').1 = pmdTok
  · simp [h1, tokNe_pmd_smwb]
  · by_cases h2 : (goSplitN2 s '=').1 = sncTok
    · simp [h2, show sncTok ≠ pmdTok by decide, tokNe_snc_smwb]
    · by_cases h3 : (goSplitN2 s '=').1 = cncTok
      · simp [h3, show cncTok ≠ pmdTok by decide, show cncTok ≠ sncTok by decide,
          tokNe_cnc_smwb]
      · by_cases h4 : (goSplitN2 s '=').1 = smwbTok
        · cases hv : (goSplitN2 s '=').2 <;>
            simp [h4, hv, show smwbTok ≠ pmdTok by decide,
              show smwbTok ≠ sncTok by decide, show smwbTok ≠ cncTok by decide]
        · by_cases h5 : (goSplitN2 s '=').1 = cmwbTok
          · cases hv : (goSplitN2 s '=').2 <;>
              simp [h5, hv, show cmwbTok ≠ pmdTok by decide,
                show cmwbTok ≠ sncTok by decide, show cmwbTok ≠ cncTok by decide,
                tokNe_cmwb_smwb]
          · simp [h1, h2, h3, h4, h5]

theorem negotiateStep_cbits (o : PermessageDeflate) (s : List Char) :
    (negotiateStep o s).clientMaxWindowBits
      = Option.elim (mwbValue cmwbTok s) o.clientMaxWindowBits
          (min o.clientMaxWindowBits) := by
  simp only [negotiateStep, mwbValue]
  by_cases h1 : (goSplitN2 s '=').1 = pmdTok
  · simp [h1, tokNe_pmd_cmwb]
  · by_cases h2 : (goSplitN2 s '=').1 = sncTok
    · simp [h2, show sncTok ≠ pmdTok by decide, tokNe_snc_cmwb]
    · by_cases h3 : (goSplitN2 s '=').1 = cncTok
      · simp [h3, show cncTok ≠ pmdTok by decide, show cncTok ≠ sncTok by decide,
          tokNe_cnc_cmwb]
      · by_cases h4 : (goSplitN2 s '=').1 = smwbTok
        · cases hv : (goSplitN2 s '=').2 <;>
            simp [h4, hv, show smwbTok ≠ pmdTok by decide,
              show smwbTok ≠ sncTok by decide, show smwbTok ≠ cncTok by decide,
              tokNe_smwb_cmwb]
        · by_cases h5 : (goSplitN2 s '=').1 = cmwbTok
          · cases hv : (goSplitN2 s '=').2 <;>
              simp [h5, hv, show cmwbTok ≠ pmdTok by decide,
                show cmwbTok ≠ sncTok by decide, show cmwbTok ≠ cncTok by decide,
                tokNe_cmwb_smwb]
          · simp [h1, h2, h3, h4, h5]

theorem negotiateStep_sct (o : PermessageDeflate) (s : List Char) :
    (negotiateStep o s).serverContextTakeover
      = (o.serverContextTakeover && !(decide ((goSplitN2 s '=').1 = sncTok))) := by
  simp only [negotiateStep]
  by_cases h1 : (goSplitN2 s '=').1 = pmdTok
  · simp [h1, tokNe_pmd_snc]
  · by_cases h2 : (goSplitN2 s '=').1 = sncTok
    · simp [h2, show sncTok ≠ pmdTok by decide]
    · by_cases h3 : (goSplitN2 s '=').1 = cncTok
      · simp [h3, show cncTok ≠ pmdTok by decide, show cncTok ≠ sncTok by decide]
      · by_cases h4 : (goSplitN2 s '=').1 = smwbTok
        · cases hv : (goSplitN2 s '=').2 <;>
            simp [h4, hv, show smwbTok ≠ pmdTok by decide,
              show smwbTok ≠ sncTok by decide, show smwbTok ≠ cncTok by decide]
        · by_cases h5 : (goSplitN2 s '=').1 = cmwbTok
          · cases hv : (goSplitN2 s '=').2 <;>
              simp [h5, hv, show cmwbTok ≠ pmdTok by decide,
                show cmwbTok ≠ sncTok by decide, show cmwbTok ≠ cncTok by decide,
                tokNe_cmwb_smwb]
          · simp [h1, h2, h3, h4, h5]

theorem negotiateStep_cct (o : PermessageDeflate) (s : List Char) :
    (negotiateStep o s).clientContextTakeover
      = (o.clientContextTakeover && !(decide ((goSplitN2 s '=').1 = cncTok))) := by
  simp only [negotiateStep]
  by_cases h1 : (goSplitN2 s '=').1 = pmdTok
  · simp [h1, show pmdTok ≠ cncTok by decide]
  · by_cases h2 : (goSplitN2 s '=').1 = sncTok
    · simp [h2, show sncTok ≠ pmdTok by decide, show sncTok ≠ cncTok by decide]
    · by_cases h3 : (goSplitN2 s '=').1 = cncTok
      · simp [h3, show cncTok ≠ pmdTok by decide, show cncTok ≠ sncTok by decide]
      · by_cases h4 : (goSplitN2 s '=').1 = smwbTok
        · cases hv : (goSplitN2 s '=').2 <;>
            simp [h4, hv, show smwbTok ≠ pmdTok by decide,
              show smwbTok ≠ sncTok by decide, show smwbTok ≠ cncTok by decide]
        · by_cases h5 : (goSplitN2 s '=').1 = cmwbTok
          · cases hv : (goSplitN2 s '=').2 <;>
              simp [h5, hv, show cmwbTok ≠ pmdTok by decide,
                show cmwbTok ≠ sncTok by decide, show cmwbTok ≠ cncTok by decide,
                tokNe_cmwb_smwb]
          · simp [h1, h2, h3, h4, h5]

theorem foldl_negotiate_sbits (ss : List (List Char)) (o : PermessageDeflate) :
    ((ss.foldl negotiateStep o).serverMaxWindowBits)
      = (ss.filterMap (mwbValue smwbTok)).foldl min o.serverMaxWindowBits := by
  induction ss generalizing o with
  | nil => rfl
  | cons s ss ih =>
    rw [List.foldl_cons, ih, List.filterMap_cons]
    cases hm : mwbValue smwbTok s with
    | none => rw [negotiateStep_sbits, hm]; rfl
    | some x => rw [negotiateStep_sbits, hm]; rfl

theorem foldl_negotiate_cbits (ss : List (List Char)) (o : PermessageDeflate) :
    ((ss.foldl negotiateStep o).clientMaxWindowBits)
      = (ss.filterMap (mwbValue cmwbTok)).foldl min o.clientMaxWindowBits := by
  induction ss generalizing o with
  | nil => rfl
  | cons s ss ih =>
    rw [List.foldl_cons, ih, List.filterMap_cons]
    cases hm : mwbValue cmwbTok s with
    | none => rw [negotiateStep_cbits, hm]; rfl
    | some x => rw [negotiateStep_cbits, hm]; rfl

theorem foldl_negotiate_sct (ss : List (List Char)) (o : PermessageDeflate) :
    ((ss.foldl negotiateStep o).serverContextTakeover)
      = (o.serverContextTakeover
          && !(ss.any (fun s => decide ((goSplitN2 s '=').1 = sncTok)))) := by
  induction ss generalizing o with
  | nil => simp
  | cons s ss ih =>
    rw [List.foldl_cons, ih, negotiateStep_sct, List.any_cons]
    cases o.serverContextTakeover <;>
      cases hd : decide ((goSplitN2 s '=').1 = sncTok) <;> simp [hd]

theorem foldl_negotiate_cct (ss : List (List Char)) (o : PermessageDeflate) :
    ((ss.foldl negotiateStep o).clientContextTakeover)
      = (o.clientContextTakeover
          && !(ss.any (fun s => decide ((goSplitN2 s '=').1 = cncTok)))) := by
  induction ss generalizing o with
  | nil => simp
  | cons s ss ih =>
    rw [List.foldl_cons, ih, negotiateStep_cct, List.any_cons]
    cases o.clientContextTakeover <;>
      cases hd : decide ((goSplitN2 s '=').1 = cncTok) <;> simp [hd]

theorem foldl_min_le_init (l : List Int) (a : Int) : l.foldl min a ≤ a := by
  induction l generalizing a with
  | nil => exact le_refl a
  | cons x l ih => exact le_trans (ih (min a x)) (min_le_left a x)

theorem selectValue_lt8 (x : Int) : selectValue (decide (x < 8)) 8 x = max 8 x := by
  unfold selectValue
  by_cases h : x < 8
  · rw [if_pos (by simpa using h)]
    exact (max_eq_left (le_of_lt h)).symm
  · rw [if_neg (by simpa using h)]
    exact (max_eq_right (not_lt.1 h)).symm

/-- Claim C5, amended: both negotiated window-bits fields lie in `[8,15]`; each
equals the minimum of the default 15 and every advertised value after the
code's zero-value fallback (a missing, unparseable or `0` value counts as 15),
raised to 8 from below; and the `*_no_context_takeover` tokens (and only they)
clear the corresponding takeover flags, which otherwise default to `true`. -/
theorem c5_negotiation_clamp (str : List Char) :
    8 ≤ (permessageNegotiation str).serverMaxWindowBits ∧
    (permessageNegotiation str).serverMaxWindowBits ≤ 15 ∧
    8 ≤ (permessageNegotiation str).clientMaxWindowBits ∧
    (permessageNegotiation str).clientMaxWindowBits ≤ 15 ∧
    (permessageNegotiation str).serverMaxWindowBits = negotiatedBits smwbTok str ∧
    (permessageNegotiation str).clientMaxWindowBits = negotiatedBits cmwbTok str ∧
    ((permessageNegotiation str).serverContextTakeover = true
        ↔ sncTok ∉ tokenKeys str) ∧
    ((permessageNegotiation str).clientContextTakeover = true
        ↔ cncTok ∉ tokenKeys str) := by
  unfold permessageNegotiation
  dsimp only
  rw [selectValue_lt8, selectValue_lt8, foldl_negotiate_sbits, foldl_negotiate_cbits,
    foldl_negotiate_sct, foldl_negotiate_cct]
  dsimp only
  refine ⟨le_max_left _ _, max_le (by norm_num) (foldl_min_le_init _ _),
    le_max_left _ _, max_le (by norm_num) (foldl_min_le_init _ _), rfl, rfl, ?_, ?_⟩ <;>
    simp [tokenKeys, advertisedValues, List.any_eq_true, List.mem_map]

/-- Claim C5 as literally stated is false: with the token
`server_max_window_bits=0` the advertised value 0 would give
`max 8 (min 15 0) = 8`, but the code treats the zero value as "use the default
15" and negotiates 15. -/
theorem c5_negotiation_claim_counterexample :
    (permessageNegotiation
        ("permessage-deflate; server_max_window_bits=0".data)).serverMaxWindowBits = 15 ∧
    negotiatedBitsClaim smwbTok ("permessage-deflate; server_max_window_bits=0".data) = 8 := by
  constructor
  · decide
  · decide

/-- Go `strings.Join(options, "; ")`. -/
def joinSep (sep : List Char) : List (List Char) → List Char
  | [] => []
  | [x] => x
  | x :: xs => x ++ sep ++ joinSep sep xs

/-- `PermessageDeflate.genResponseHeader` (src/compress.go lines 176-192). -/
def genResponseHeader (c : PermessageDeflate) : List Char :=
  let options := [pmdTok]
  let options := if c.serverContextTakeover then options else options ++ [sncTok]
  let options := if c.clientContextTakeover then options else options ++ [cncTok]
  let options := if c.serverMaxWindowBits = 15 then options
    else options ++ [smwbTok ++ eqTok ++ goItoa c.serverMaxWindowBits]
  let options := if c.clientMaxWindowBits = 15 then options
    else options ++ [cmwbTok ++ eqTok ++ goItoa c.clientMaxWindowBits]
  joinSep "; ".data options

/-- The four negotiated parameters recovered by feeding a response header back
through negotiation. -/
def rtFacts (sct cct : Bool) (sb cb : Int) : Prop :=
  (permessageNegotiation
      (genResponseHeader ⟨false, 0, 0, 0, sct, cct, sb, cb⟩)).serverContextTakeover = sct ∧
  (permessageNegotiation
      (genResponseHeader ⟨false, 0, 0, 0, sct, cct, sb, cb⟩)).clientContextTakeover = cct ∧
  (permessageNegotiation
      (genResponseHeader ⟨false, 0, 0, 0, sct, cct, sb, cb⟩)).serverMaxWindowBits = sb ∧
  (permessageNegotiation
      (genResponseHeader ⟨false, 0, 0, 0, sct, cct, sb, cb⟩)).clientMaxWindowBits = cb

instance rtFactsDecidable (sct cct : Bool) (sb cb : Int) :
    Decidable (rtFacts sct cct sb cb) := by
  unfold rtFacts; infer_instance

theorem negotiation_roundtrip_bounded :
    ∀ (sct cct : Bool) (i j : Fin 8),
      rtFacts sct cct (8 + (i.val : Int)) (8 + (j.val : Int)) := by decide

/-- Claim C9: for parameters with both window-bits fields in `[8,15]`,
negotiating the generated response header recovers the takeover flags and both
window-bits values. -/
theorem c9_response_header_roundtrip (pd : PermessageDeflate)
    (h1 : 8 ≤ pd.serverMaxWindowBits) (h2 : pd.serverMaxWindowBits ≤ 15)
    (h3 : 8 ≤ pd.clientMaxWindowBits) (h4 : pd.clientMaxWindowBits ≤ 15) :
    (permessageNegotiation (genResponseHeader pd)).serverContextTakeover
        = pd.serverContextTakeover ∧
    (permessageNegotiation (genResponseHeader pd)).clientContextTakeover
        = pd.clientContextTakeover ∧
    (permessageNegotiation (genResponseHeader pd)).serverMaxWindowBits
        = pd.serverMaxWindowBits ∧
    (permessageNegotiation (genResponseHeader pd)).clientMaxWindowBits
        = pd.clientMaxWindowBits := by
  have hgen : genResponseHeader pd
      = genResponseHeader ⟨false, 0, 0, 0, pd.serverContextTakeover,
          pd.clientContextTakeover, pd.serverMaxWindowBits, pd.clientMaxWindowBits⟩ := rfl
  have hilt : (pd.serverMaxWindowBits - 8).toNat < 8 := by omega
  have hjlt : (pd.clientMaxWindowBits - 8).toNat < 8 := by omega
  have hkey := negotiation_roundtrip_bounded pd.serverContextTakeover
    pd.clientContextTakeover ⟨(pd.serverMaxWindowBits - 8).toNat, hilt⟩
    ⟨(pd.clientMaxWindowBits - 8).toNat, hjlt⟩
  unfold rtFacts at hkey
  have hi : (8 + (((pd.serverMaxWindowBits - 8).toNat : Nat) : Int))
      = pd.serverMaxWindowBits := by omega
  have hj : (8 + (((pd.clientMaxWindowBits - 8).toNat : Nat) : Int))
      = pd.clientMaxWindowBits := by omega
  rw [hi, hj] at hkey
  rw [hgen]
  exact hkey

theorem c9_response_header_roundtrip_witness :
    (8 ≤ (10 : Int) ∧ (10 : Int) ≤ 15 ∧ 8 ≤ (12 : Int) ∧ (12 : Int) ≤ 15) ∧
    ((permessageNegotiation
        (genResponseHeader ⟨true, 512, 1, 60, false, true, 10, 12⟩)).serverContextTakeover
          = false ∧
     (permessageNegotiation
        (genResponseHeader ⟨true, 512, 1, 60, false, true, 10, 12⟩)).clientContextTakeover
          = true ∧
     (permessageNegotiation
        (genResponseHeader ⟨true, 512, 1, 60, false, true, 10, 12⟩)).serverMaxWindowBits
          = 10 ∧
     (permessageNegotiation
        (genResponseHeader ⟨true, 512, 1, 60, false, true, 10, 12⟩)).clientMaxWindowBits
          = 12) :=
  ⟨⟨by decide, by decide, by decide, by decide⟩,
    c9_response_header_roundtrip ⟨true, 512, 1, 60, false, true, 10, 12⟩
      (by decide) (by decide) (by decide) (by decide)⟩

/-! ## Deflater pool (src/compress.go lines 21-38) -/

/-- The doubling loop of `internal.ToBinaryNumber` (`x := 1; for x < n, x *= 2`),
with an explicit iteration budget so the recursion is structural. -/
def tbnAux (n : Nat) : Nat → Nat → Nat
  | 0, x => x
  | fuel + 1, x => if x < n then tbnAux n fuel (2 * x) else x

/-- Modelled from the spec: `internal.ToBinaryNumber` is absent from `src/`;
per the spec pool and shard counts are "rounded up to a power of two", i.e. the
smallest power of two that is at least the argument (1 for argument 0).  A
budget of `n` doublings always suffices since `n < 2^n`. -/
def toBinaryNumber (n : Nat) : Nat := tbnAux n n 1

theorem tbnAux_ge (n : Nat) : ∀ (fuel x : Nat), n ≤ 2 ^ fuel * x → n ≤ tbnAux n fuel x := by
  intro fuel
  induction fuel with
  | zero => intro x h; simpa [tbnAux] using h
  | succ fuel ih =>
    intro x h
    unfold tbnAux
    by_cases hx : x < n
    · rw [if_pos hx]
      refine ih (2 * x) ?_
      calc n ≤ 2 ^ (fuel + 1) * x := h
        _ = 2 ^ fuel * (2 * x) := by ring
    · rw [if_neg hx]; omega

theorem tbnAux_lt (n : Nat) : ∀ (fuel x : Nat), x < 2 * n → tbnAux n fuel x < 2 * n := by
  intro fuel
  induction fuel with
  | zero => intro x h; simpa [tbnAux] using h
  | succ fuel ih =>
    intro x h
    unfold tbnAux
    by_cases hx : x < n
    · rw [if_pos hx]
      exact ih (2 * x) (by omega)
    · rw [if_neg hx]; exact h

theorem tbnAux_pow2 (n : Nat) : ∀ (fuel x j : Nat), x = 2 ^ j →
    ∃ m, tbnAux n fuel x = 2 ^ m := by
  intro fuel
  induction fuel with
  | zero => intro x j h; exact ⟨j, by simpa [tbnAux] using h⟩
  | succ fuel ih =>
    intro x j h
    unfold tbnAux
    by_cases hx : x < n
    · rw [if_pos hx]
      exact ih (2 * x) (j + 1) (by rw [h]; ring)
    · rw [if_neg hx]; exact ⟨j, h⟩

theorem le_toBinaryNumber (n : Nat) : n ≤ toBinaryNumber n :=
  tbnAux_ge n n 1 (by simpa using (Nat.lt_two_pow n).le)

theorem toBinaryNumber_lt_two_mul (n : Nat) (h : 0 < n) : toBinaryNumber n < 2 * n :=
  tbnAux_lt n n 1 (by omega)

theorem toBinaryNumber_pow2 (n : Nat) : ∃ m, toBinaryNumber n = 2 ^ m :=
  tbnAux_pow2 n n 1 0 (by norm_num)

/-- Modelled from the spec: the server option initialization (absent from
`src/`) rounds `PermessageDeflate.PoolSize` up to a power of two before
`deflaterPool.initialize` is called, so the pool is built with the rounded
size. -/
def normalizePoolSize (n : Nat) : Nat := toBinaryNumber n

/-- `deflaterPool` (src/compress.go lines 21-25): a serial counter (uint64,
hence kept below `2^64`), the pool size, and the pool itself.  The deflaters
carry no state relevant to selection, so each is represented by its index. -/
structure DeflaterPool where
  serial : Nat
  num : Nat
  pool : List Nat
deriving Repr

def u64size : Nat := 2 ^ 64

/-- `deflaterPool.initialize` (src/compress.go lines 27-33): `num :=
uint64(options.PoolSize)` and `num` fresh deflaters are appended to the pool. -/
def deflaterPoolInit (poolSize : Nat) : DeflaterPool :=
  { serial := 0, num := poolSize, pool := List.range poolSize }

/-- `deflaterPool.Select` (src/compress.go lines 35-38):
`j := atomic.AddUint64(&c.serial, 1) & (c.num - 1); return c.pool[j]`
(the out-of-range default 0 is never used: `j < num` whenever `num` is a power
of two). -/
def deflaterPoolSelect (c : DeflaterPool) : DeflaterPool × Nat :=
  let s1 := (c.serial + 1) % u64size
  let j := s1 &&& (c.num - 1)
  ({ c with serial := s1 }, c.pool.getD j 0)

/-- The deflaters returned by `n` successive `Select` calls. -/
def selectTrace (c : DeflaterPool) : Nat → List Nat
  | 0 => []
  | n + 1 => (deflaterPoolSelect c).2 :: selectTrace (deflaterPoolSelect c).1 n

theorem selectTrace_eq (k : Nat) (hk : k ≤ 64) (pool : List Nat) :
    ∀ (n s : Nat),
      selectTrace ⟨s, 2 ^ k, pool⟩ n
        = (List.range n).map (fun i => pool.getD ((s + 1 + i) % 2 ^ k) 0) := by
  have hdvd : 2 ^ k ∣ u64size := pow_dvd_pow 2 hk
  intro n
  induction n with
  | zero => intro s; rfl
  | succ n ih =>
    intro s
    unfold selectTrace deflaterPoolSelect
    dsimp only
    rw [Nat.and_pow_two_sub_one_eq_mod, ih ((s + 1) % u64size), List.range_succ_eq_map,
      List.map_cons, List.map_map]
    congr 1
    · have h1 : (s + 1) % u64size % 2 ^ k = (s + 1 + 0) % 2 ^ k := by
        rw [Nat.mod_mod_of_dvd _ hdvd, Nat.add_zero]
      rw [h1]
    · apply List.map_congr_left
      intro i _
      have h2 : ((s + 1) % u64size + 1 + i) % 2 ^ k = (s + 1 + Nat.succ i) % 2 ^ k := by
        have h3 : ((s + 1) % u64size + (1 + i)) % 2 ^ k = ((s + 1) + (1 + i)) % 2 ^ k :=
          Nat.ModEq.add_right (1 + i) (Nat.mod_mod_of_dvd (s + 1) hdvd)
        have h4 : (s + 1) % u64size + 1 + i = (s + 1) % u64size + (1 + i) := by omega
        have h5 : s + 1 + Nat.succ i = s + 1 + (1 + i) := by omega
        rw [h4, h5, h3]
      simp only [Function.comp]
      rw [h2]

theorem mod_shift_nodup (a n : Nat) (hn : 0 < n) :
    ((List.range n).map (fun i => (a + i) % n)).Nodup := by
  refine List.Nodup.map_on ?_ (List.nodup_range n)
  intro i hi j hj hf
  rw [List.mem_range] at hi hj
  have h2 : Nat.ModEq n i j := Nat.ModEq.add_left_cancel' a hf
  have h3 : i % n = j % n := h2
  rwa [Nat.mod_eq_of_lt hi, Nat.mod_eq_of_lt hj] at h3

theorem mod_shift_mem (a n j : Nat) (hn : 0 < n) (hj : j < n) :
    j ∈ (List.range n).map (fun i => (a + i) % n) := by
  rw [List.mem_map]
  refine ⟨(j + n - a % n) % n, List.mem_range.2 (Nat.mod_lt _ hn), ?_⟩
  have ha : a % n < n := Nat.mod_lt _ hn
  have e1 : (a + (j + n - a % n) % n) % n = (a % n + (j + n - a % n)) % n :=
    Nat.ModEq.add ((Nat.mod_modEq a n).symm) (Nat.mod_modEq _ n)
  have h5 : a % n + (j + n - a % n) = j + n := by omega
  rw [e1, h5, Nat.add_mod_right, Nat.mod_eq_of_lt hj]

theorem selectTrace_range (k : Nat) (hk : k ≤ 64) (n s : Nat) :
    selectTrace ⟨s, 2 ^ k, List.range (2 ^ k)⟩ n
      = (List.range n).map (fun i => (s + 1 + i) % 2 ^ k) := by
  rw [selectTrace_eq k hk]
  apply List.map_congr_left
  intro i _
  have hlt : (s + 1 + i) % 2 ^ k < 2 ^ k := Nat.mod_lt _ (by positivity)
  rw [List.getD_eq_getElem?_getD, List.getElem?_range hlt]
  rfl

/-- Claim C6: the deflater pool is built with `PoolSize` rounded up to a power
of two (the rounding lives in the option initialization, modelled from the
spec); `Select` returns the pool element at index
`(atomically incremented serial) & (size - 1)`, which equals
`(serial + 1) mod size`; and any `size` consecutive `Select` calls return each
pool element exactly once (no duplicates, every element hit). -/
theorem c6_deflater_pool_round_robin (poolSize s j : Nat)
    (hps : 0 < poolSize) (hps64 : poolSize ≤ u64size) (hs : s < u64size)
    (hj : j < (deflaterPoolInit (normalizePoolSize poolSize)).num) :
    (∃ t, (deflaterPoolInit (normalizePoolSize poolSize)).num = 2 ^ t) ∧
    poolSize ≤ (deflaterPoolInit (normalizePoolSize poolSize)).num ∧
    (deflaterPoolInit (normalizePoolSize poolSize)).num < 2 * poolSize ∧
    (deflaterPoolInit (normalizePoolSize poolSize)).pool
        = List.range (deflaterPoolInit (normalizePoolSize poolSize)).num ∧
    (deflaterPoolSelect
        ⟨s, normalizePoolSize poolSize, List.range (normalizePoolSize poolSize)⟩).2
      = (List.range (normalizePoolSize poolSize)).getD
          (((s + 1) % u64size) &&& (normalizePoolSize poolSize - 1)) 0 ∧
    (deflaterPoolSelect
        ⟨s, normalizePoolSize poolSize, List.range (normalizePoolSize poolSize)⟩).2
      = (s + 1) % normalizePoolSize poolSize ∧
    (selectTrace
        ⟨s, normalizePoolSize poolSize, List.range (normalizePoolSize poolSize)⟩
        (normalizePoolSize poolSize)).length = normalizePoolSize poolSize ∧
    (selectTrace
        ⟨s, normalizePoolSize poolSize, List.range (normalizePoolSize poolSize)⟩
        (normalizePoolSize poolSize)).Nodup ∧
    j ∈ selectTrace
        ⟨s, normalizePoolSize poolSize, List.range (normalizePoolSize poolSize)⟩
        (normalizePoolSize poolSize) := by
  obtain ⟨t, ht⟩ := toBinaryNumber_pow2 poolSize
  have htn : normalizePoolSize poolSize = 2 ^ t := ht
  have ht64 : t ≤ 64 := by
    have h1 : (2 : Nat) ^ t < 2 ^ 65 := by
      rw [← htn]
      calc normalizePoolSize poolSize < 2 * poolSize := toBinaryNumber_lt_two_mul _ hps
        _ ≤ 2 * u64size := by omega
        _ = 2 ^ 65 := by unfold u64size; ring
    have := (Nat.pow_lt_pow_iff_right (a := 2) (by norm_num)).1 h1
    omega
  have hpos : 0 < normalizePoolSize poolSize := by
    rw [htn]; positivity
  have hnum : (deflaterPoolInit (normalizePoolSize poolSize)).num
      = normalizePoolSize poolSize := rfl
  refine ⟨⟨t, by rw [hnum, htn]⟩, le_toBinaryNumber poolSize,
    toBinaryNumber_lt_two_mul _ hps, rfl, rfl, ?_, ?_, ?_, ?_⟩
  · rw [htn]
    unfold deflaterPoolSelect
    dsimp only
    rw [Nat.and_pow_two_sub_one_eq_mod, show u64size = 2 ^ 64 from rfl,
      Nat.mod_mod_of_dvd _ (pow_dvd_pow 2 ht64)]
    have hlt : (s + 1) % 2 ^ t < 2 ^ t := Nat.mod_lt _ (by positivity)
    rw [List.getD_eq_getElem?_getD, List.getElem?_range hlt]
    rfl
  · rw [htn, selectTrace_range t ht64]
    simp
  · rw [htn, selectTrace_range t ht64]
    exact mod_shift_nodup (s + 1) (2 ^ t) (by positivity)
  · rw [hnum, htn] at hj
    rw [htn, selectTrace_range t ht64]
    exact mod_shift_mem (s + 1) (2 ^ t) j (by positivity) hj

theorem c6_deflater_pool_round_robin_witness :
    (0 < 5 ∧ 5 ≤ u64size ∧ 3 < u64size ∧
      6 < (deflaterPoolInit (normalizePoolSize 5)).num) ∧
    ((∃ t, (deflaterPoolInit (normalizePoolSize 5)).num = 2 ^ t) ∧
     5 ≤ (deflaterPoolInit (normalizePoolSize 5)).num ∧
     (deflaterPoolInit (normalizePoolSize 5)).num < 2 * 5 ∧
     (deflaterPoolInit (normalizePoolSize 5)).pool
         = List.range (deflaterPoolInit (normalizePoolSize 5)).num ∧
     (deflaterPoolSelect ⟨3, normalizePoolSize 5, List.range (normalizePoolSize 5)⟩).2
       = (List.range (normalizePoolSize 5)).getD
           (((3 + 1) % u64size) &&& (normalizePoolSize 5 - 1)) 0 ∧
     (deflaterPoolSelect ⟨3, normalizePoolSize 5, List.range (normalizePoolSize 5)⟩).2
       = (3 + 1) % normalizePoolSize 5 ∧
     (selectTrace ⟨3, normalizePoolSize 5, List.range (normalizePoolSize 5)⟩
         (normalizePoolSize 5)).length = normalizePoolSize 5 ∧
     (selectTrace ⟨3, normalizePoolSize 5, List.range (normalizePoolSize 5)⟩
         (normalizePoolSize 5)).Nodup ∧
     6 ∈ selectTrace ⟨3, normalizePoolSize 5, List.range (normalizePoolSize 5)⟩
         (normalizePoolSize 5)) :=
  ⟨⟨by decide, by norm_num [u64size], by norm_num [u64size], by decide⟩,
    c6_deflater_pool_round_robin 5 3 6 (by decide) (by norm_num [u64size])
      (by norm_num [u64size]) (by decide)⟩

/-! ## Sharded concurrent map (src/session_storage.go lines 61-180) -/

/-- A Go `map[K]V`, modelled extensionally (present keys map to `some`). -/
def GoMap (K V : Type) := K → Option V

def goMapEmpty (K V : Type) : GoMap K V := fun _ => none

/-- `Map.Load` (src/session_storage.go lines 165-168): `value, ok = m[key]`,
encoded as `Option`. -/
def goMapLoad {K V : Type} (m : GoMap K V) (k : K) : Option V := m k

/-- `Map.Store` (src/session_storage.go line 172): `m[key] = value`. -/
def goMapStore {K V : Type} [DecidableEq K] (m : GoMap K V) (k : K) (v : V) : GoMap K V :=
  fun q => if q = k then some v else m q

/-- `Map.Delete` (src/session_storage.go line 170): `delete(m, key)`. -/
def goMapDelete {K V : Type} [DecidableEq K] (m : GoMap K V) (k : K) : GoMap K V :=
  fun q => if q = k then none else m q

/-- `ConcurrentMap` (src/session_storage.go lines 61-67): the `maphash.Hasher`
(an external dependency, abstracted as a function), the shard count `num`, and
the shard list. -/
structure ConcurrentMap (K V : Type) where
  hash : K → Nat
  num : Nat
  shardings : List (GoMap K V)

/-- `NewConcurrentMap` (src/session_storage.go lines 71-84): `size` is padded
with two zeros, `num = size[0]`, replaced by 16 when `num <= 0` (uint64, so
when it is 0), then rounded up to a power of two; `capacity = size[1]` only
pre-sizes the Go maps and has no observable effect, and every shard starts
empty. -/
def newConcurrentMap {K V : Type} (hasher : K → Nat) (size : List Nat) :
    ConcurrentMap K V :=
  let size1 := size ++ [0, 0]
  let num0 := size1.headD 0
  let num := toBinaryNumber (selectValue (decide (num0 = 0)) 16 num0)
  { hash := hasher, num := num, shardings := List.replicate num (goMapEmpty K V) }

/-- The shard index computed by `ConcurrentMap.GetSharding`
(src/session_storage.go lines 88-92): `hashCode & (num - 1)`. -/
def getShardingIdx {K V : Type} (c : ConcurrentMap K V) (key : K) : Nat :=
  c.hash key &&& (c.num - 1)

/-- `ConcurrentMap.Load` (src/session_storage.go lines 108-114): load from the
shard the key routes to (locking elided: the embedding is sequential). -/
def cmLoad {K V : Type} (c : ConcurrentMap K V) (k : K) : Option V :=
  goMapLoad (c.shardings.getD (getShardingIdx c k) (goMapEmpty K V)) k

/-- `ConcurrentMap.Store` (src/session_storage.go lines 125-130). -/
def cmStore {K V : Type} [DecidableEq K] (c : ConcurrentMap K V) (k : K) (v : V) :
    ConcurrentMap K V :=
  let i := getShardingIdx c k
  { c with shardings :=
      c.shardings.set i (goMapStore (c.shardings.getD i (goMapEmpty K V)) k v) }

/-- `ConcurrentMap.Delete` (src/session_storage.go lines 117-122). -/
def cmDelete {K V : Type} [DecidableEq K] (c : ConcurrentMap K V) (k : K) :
    ConcurrentMap K V :=
  let i := getShardingIdx c k
  { c with shardings :=
      c.shardings.set i (goMapDelete (c.shardings.getD i (goMapEmpty K V)) k) }

theorem land_lt_of_pow2 (x n : Nat) (h : ∃ t, n = 2 ^ t) : x &&& (n - 1) < n := by
  obtain ⟨t, rfl⟩ := h
  rw [Nat.and_pow_two_sub_one_eq_mod]
  exact Nat.mod_lt _ (by positivity)

/-- Claim C7: the shard count is the requested count rounded up to a power of
two — 16 when the count is absent or zero — and `GetSharding` routes key `k` to
shard `hash k & (num - 1) = hash k mod num`; equal keys route to the same
shard. -/
theorem c7_concurrent_map_sharding (K V : Type) (hasher : K → Nat)
    (size rest : List Nat) (k1 k2 : K) (hkk : k1 = k2) :
    (∃ t, (newConcurrentMap hasher size : ConcurrentMap K V).num = 2 ^ t) ∧
    (newConcurrentMap hasher size : ConcurrentMap K V).num
        = toBinaryNumber (selectValue (decide (size.headD 0 = 0)) 16 (size.headD 0)) ∧
    size.headD 0 ≤ (newConcurrentMap hasher size : ConcurrentMap K V).num ∧
    (newConcurrentMap hasher [] : ConcurrentMap K V).num = 16 ∧
    (newConcurrentMap hasher (0 :: rest) : ConcurrentMap K V).num = 16 ∧
    (newConcurrentMap hasher size : ConcurrentMap K V).shardings.length
        = (newConcurrentMap hasher size : ConcurrentMap K V).num ∧
    getShardingIdx (newConcurrentMap hasher size : ConcurrentMap K V) k1
        = hasher k1 % (newConcurrentMap hasher size : ConcurrentMap K V).num ∧
    getShardingIdx (newConcurrentMap hasher size : ConcurrentMap K V) k1
        = getShardingIdx (newConcurrentMap hasher size : ConcurrentMap K V) k2 := by
  have hhead : (size ++ [0, 0]).headD 0 = size.headD 0 := by
    cases size <;> rfl
  have hnum : (newConcurrentMap hasher size : ConcurrentMap K V).num
      = toBinaryNumber (selectValue (decide (size.headD 0 = 0)) 16 (size.headD 0)) := by
    unfold newConcurrentMap
    dsimp only
    rw [hhead]
  obtain ⟨t, ht⟩ :=
    toBinaryNumber_pow2 (selectValue (decide (size.headD 0 = 0)) 16 (size.headD 0))
  have hpow : ∃ t, (newConcurrentMap hasher size : ConcurrentMap K V).num = 2 ^ t :=
    ⟨t, by rw [hnum, ht]⟩
  refine ⟨hpow, hnum, ?_, ?_, ?_, ?_, ?_, ?_⟩
  · rw [hnum]
    by_cases h0 : size.headD 0 = 0
    · rw [h0]
      exact Nat.zero_le _
    · have hsel : selectValue (decide (size.headD 0 = 0)) 16 (size.headD 0)
          = size.headD 0 := by
        unfold selectValue
        rw [if_neg (by simpa using h0)]
      rw [hsel]
      exact le_toBinaryNumber _
  · rfl
  · rfl
  · unfold newConcurrentMap
    dsimp only
    rw [List.length_replicate]
  · obtain ⟨u, hu⟩ := hpow
    unfold getShardingIdx
    rw [show (newConcurrentMap hasher size : ConcurrentMap K V).hash = hasher from rfl, hu,
      Nat.and_pow_two_sub_one_eq_mod]
  · rw [hkk]

theorem c7_concurrent_map_sharding_witness :
    ((3 : Nat) = 3) ∧
    ((∃ t, (newConcurrentMap (fun n => n) [5] : ConcurrentMap Nat Nat).num = 2 ^ t) ∧
     (newConcurrentMap (fun n => n) [5] : ConcurrentMap Nat Nat).num
         = toBinaryNumber (selectValue (decide (([5] : List Nat).headD 0 = 0)) 16
             (([5] : List Nat).headD 0)) ∧
     ([5] : List Nat).headD 0 ≤ (newConcurrentMap (fun n => n) [5] : ConcurrentMap Nat Nat).num ∧
     (newConcurrentMap (fun n => n) [] : ConcurrentMap Nat Nat).num = 16 ∧
     (newConcurrentMap (fun n => n) (0 :: []) : ConcurrentMap Nat Nat).num = 16 ∧
     (newConcurrentMap (fun n => n) [5] : ConcurrentMap Nat Nat).shardings.length
         = (newConcurrentMap (fun n => n) [5] : ConcurrentMap Nat Nat).num ∧
     getShardingIdx (newConcurrentMap (fun n => n) [5] : ConcurrentMap Nat Nat) 3
         = (fun (n : Nat) => n) 3 % (newConcurrentMap (fun n => n) [5] : ConcurrentMap Nat Nat).num ∧
     getShardingIdx (newConcurrentMap (fun n => n) [5] : ConcurrentMap Nat Nat) 3
         = getShardingIdx (newConcurrentMap (fun n => n) [5] : ConcurrentMap Nat Nat) 3) :=
  ⟨rfl, c7_concurrent_map_sharding Nat Nat (fun n => n) [5] [] 3 3 rfl⟩

/-- Claim C10: on a well-formed map (shard list of length `num`, `num` a power
of two, as `NewConcurrentMap` builds), `Store(k, v)` makes `Load k` return
`(v, true)`, `Delete k` makes `Load k` return `ok = false`, and both leave
every other key's association unchanged. -/
theorem c10_concurrent_map_store_load_delete (K V : Type) [DecidableEq K]
    (c : ConcurrentMap K V) (k k' : K) (v : V)
    (hlen : c.shardings.length = c.num) (hpow : ∃ t, c.num = 2 ^ t)
    (hne : k' ≠ k) :
    cmLoad (cmStore c k v) k = some v ∧
    cmLoad (cmStore c k v) k' = cmLoad c k' ∧
    cmLoad (cmDelete c k) k = none ∧
    cmLoad (cmDelete c k) k' = cmLoad c k' := by
  have hidx : ∀ q : K, getShardingIdx c q < c.shardings.length := by
    intro q
    rw [hlen]
    exact land_lt_of_pow2 _ _ hpow
  have hsame : ∀ (sh : List (GoMap K V)) (q : K),
      getShardingIdx { hash := c.hash, num := c.num, shardings := sh } q
        = getShardingIdx c q := fun _ _ => rfl
  refine ⟨?_, ?_, ?_, ?_⟩
  · unfold cmLoad cmStore
    dsimp only
    simp only [hsame]
    rw [List.getD_eq_getElem?_getD, List.getElem?_set_self (hidx k)]
    unfold goMapLoad goMapStore
    simp
  · unfold cmLoad cmStore
    dsimp only
    simp only [hsame]
    by_cases hsh : getShardingIdx c k' = getShardingIdx c k
    · rw [hsh, List.getD_eq_getElem?_getD, List.getElem?_set_self (hidx k),
        List.getD_eq_getElem?_getD]
      unfold goMapLoad goMapStore
      simp [hne]
    · rw [List.getD_eq_getElem?_getD, List.getElem?_set_ne (fun he => hsh he.symm),
        List.getD_eq_getElem?_getD]
  · unfold cmLoad cmDelete
    dsimp only
    simp only [hsame]
    rw [List.getD_eq_getElem?_getD, List.getElem?_set_self (hidx k)]
    unfold goMapLoad goMapDelete
    simp
  · unfold cmLoad cmDelete
    dsimp only
    simp only [hsame]
    by_cases hsh : getShardingIdx c k' = getShardingIdx c k
    · rw [hsh, List.getD_eq_getElem?_getD, List.getElem?_set_self (hidx k),
        List.getD_eq_getElem?_getD]
      unfold goMapLoad goMapDelete
      simp [hne]
    · rw [List.getD_eq_getElem?_getD, List.getElem?_set_ne (fun he => hsh he.symm),
        List.getD_eq_getElem?_getD]

theorem c10_concurrent_map_store_load_delete_witness :
    ((newConcurrentMap (fun n => n) [2] : ConcurrentMap Nat Nat).shardings.length
        = (newConcurrentMap (fun n => n) [2] : ConcurrentMap Nat Nat).num ∧
     (∃ t, (newConcurrentMap (fun n => n) [2] : ConcurrentMap Nat Nat).num = 2 ^ t) ∧
     (7 : Nat) ≠ 4) ∧
    (cmLoad (cmStore (newConcurrentMap (fun n => n) [2] : ConcurrentMap Nat Nat) 4 99) 4
        = some 99 ∧
     cmLoad (cmStore (newConcurrentMap (fun n => n) [2] : ConcurrentMap Nat Nat) 4 99) 7
        = cmLoad (newConcurrentMap (fun n => n) [2] : ConcurrentMap Nat Nat) 7 ∧
     cmLoad (cmDelete (newConcurrentMap (fun n => n) [2] : ConcurrentMap Nat Nat) 4) 4
        = none ∧
     cmLoad (cmDelete (newConcurrentMap (fun n => n) [2] : ConcurrentMap Nat Nat) 4) 7
        = cmLoad (newConcurrentMap (fun n => n) [2] : ConcurrentMap Nat Nat) 7) :=
  ⟨⟨by decide, ⟨1, by decide⟩, by decide⟩,
    c10_concurrent_map_store_load_delete Nat Nat
      (newConcurrentMap (fun n => n) [2]) 4 7 99 (by decide) ⟨1, by decide⟩ (by decide)⟩
